import Mathlib

/-!
Verification development for the `rust_solver` subset-sum engine.

The Rust sources (src/rust_solver/src/{lib,bit_enum,meet_middle,dynamic_prog,
branch_bound}.rs) are shallowly embedded below.  The embedding choices:

* `i64` values become `Int`; `usize` values become `Nat`.  Arithmetic overflow
  of i64 sums is an explicit non-goal of the engine, so `Int` sums are exact;
  the `as usize` casts of the dynamic-programming solver, however, are
  semantically load-bearing (they wrap negative values to huge numbers), so
  they are modelled exactly via `usizeCast` (release-mode wrapping semantics).
* Rust panics (out-of-bounds indexing, `Vec` capacity overflow) are modelled
  by returning `none` from the affected solver (`findSubsetSumDpRaw`).
* The rayon-parallel loops of the solvers are modelled sequentially.  For
  `bit_enum` and `meet_middle` the per-cpu blocks are contiguous increasing
  mask ranges that exactly tile `[0, max)`, and the shared `found` flag is
  read at the top of every mask iteration, so the sequential semantics is
  independent of the block split and equals a single in-order mask loop that
  stops at the first recorded match when `find_all = false`.  For
  `branch_bound` the tasks carry no shared stop flag at all, so the merged
  result is the in-order concatenation of the per-task serial results.
  A separate small-step machine (`MMMachine`) additionally models the
  mutex-interleaved execution of two `meet_middle` workers at the granularity
  of the two shared-state actions of a worker (reading the `found` flag at the
  top of a mask iteration, and appending a result / setting the flag).
-/

namespace NewSum

/-- Sum of the elements of `numbers` selected by the index list `ixs`
(out-of-range indices contribute 0; the solvers only produce in-range
indices). -/
def sumAt (numbers : List Int) (ixs : List Nat) : Int :=
  (ixs.map (fun i => numbers.getD i 0)).sum

/-- The match predicate shared by all four solvers (bit_enum.rs lines 57-61,
meet_middle.rs window test, dynamic_prog.rs lines 71-77, branch_bound.rs lines
166-178): exact equality when `precision == 0`, otherwise
`(sum - target).abs() <= precision`. -/
def isMatch (target precision s : Int) : Bool :=
  if precision = 0 then s == target else decide (|s - target| ≤ precision)

/-- The indices selected by a bitmask: `for i in 0..k { if mask & (1 << i) != 0 }`
collects `i` in increasing order. -/
def maskBits (mask : Nat) (k : Nat) : List Nat :=
  (List.range k).filter (fun i => mask.testBit i)

/-- Release-mode semantics of Rust's `v as usize` for a signed 64-bit value:
wrap modulo 2^64. -/
def usizeCast (v : Int) : Nat :=
  (v % (2 ^ 64 : Int)).toNat

/-! ## Bit-enumeration solver (bit_enum.rs) -/

/-- Source: `let max_combinations = if n >= 30 { 1u64 << 30 } else { 1u64 << n };`
(bit_enum.rs line 27). -/
def maxCombinations (n : Nat) : Nat :=
  if 30 ≤ n then 2 ^ 30 else 2 ^ n

/-- The sequential mask loop of bit_enum.rs lines 34-74.  Each iteration first
reads the shared `found` flag (line 41); a worker that records a match under
`find_all = false` sets the flag and breaks (lines 63-71), after which every
remaining iteration (of any block) exits at the flag check, so the sequential
semantics simply returns at that point. -/
def bitEnumGo (numbers : List Int) (target precision : Int) (findAll : Bool) :
    List Nat → List (List Nat) → List (List Nat)
  | [], acc => acc
  | mask :: rest, acc =>
    let ixs := maskBits mask (min numbers.length 64)
    let s := sumAt numbers ixs
    if isMatch target precision s then
      if findAll then bitEnumGo numbers target precision findAll rest (acc ++ [ixs])
      else acc ++ [ixs]
    else bitEnumGo numbers target precision findAll rest acc

/-- bit_enum.rs `find_subset_sum_bit_enum_raw`: enumerate all masks below
`max_combinations`, then truncate to the first solution when
`find_all = false` and more than one was collected (lines 83-85). -/
def findSubsetSumBitEnumRaw (numbers : List Int) (target precision : Int)
    (findAll : Bool) : List (List Nat) :=
  let res := bitEnumGo numbers target precision findAll
      (List.range (maxCombinations numbers.length)) []
  if findAll = false ∧ 1 < res.length then res.take 1 else res

/-! ## Meet-in-the-middle solver (meet_middle.rs) -/

/-- Ordering of first-half entries used by `first_half.sort_by(|a, b| a.0.cmp(&b.0))`
(meet_middle.rs line 44): ascending by the sum component. -/
def sumLE (a b : Int × List Nat) : Prop := a.1 ≤ b.1

instance : DecidableRel sumLE := fun a b => inferInstanceAs (Decidable (a.1 ≤ b.1))

instance : IsTotal (Int × List Nat) sumLE := ⟨fun a b => Int.le_total a.1 b.1⟩

instance : IsTrans (Int × List Nat) sumLE := ⟨fun _ _ _ h h' => le_trans h h'⟩

/-- First-half subset sums (meet_middle.rs lines 30-41): for every mask below
`2^mid`, the pair of the selected sum and the selected indices (ascending). -/
def firstHalfPairs (numbers : List Int) (mid : Nat) : List (Int × List Nat) :=
  (List.range (2 ^ mid)).map (fun mask =>
    let ixs := maskBits mask mid
    (sumAt numbers ixs, ixs))

/-- The loop of `binary_search_lower_bound` (meet_middle.rs lines 229-242):
`Ordering::Less → left = mid + 1`, otherwise `right = mid`.  The gap
`right - left` shrinks at every iteration, so any `fuel ≥ right - left` makes
the 0 branch unreachable; structural recursion on the fuel keeps the
definition kernel-reducible. -/
def bslbGo (arr : List (Int × List Nat)) (target : Int) :
    Nat → Nat → Nat → Nat
  | 0, left, _ => left
  | fuel + 1, left, right =>
    if left < right then
      let mid := left + (right - left) / 2
      if (arr.getD mid (0, [])).1 < target then bslbGo arr target fuel (mid + 1) right
      else bslbGo arr target fuel left mid
    else left

/-- meet_middle.rs `binary_search_lower_bound`. -/
def binarySearchLowerBound (arr : List (Int × List Nat)) (target : Int) : Nat :=
  bslbGo arr target arr.length 0 arr.length

/-- The scan of meet_middle.rs lines 81-101 over the sorted first half starting
at the lower-bound position: stop at the first sum above `upper`; push the
concatenated index list for every entry scanned; under `find_all = false` the
first push sets the shared `found` flag and breaks (returned boolean). -/
def mmScanGo (secondIxs : List Nat) (upper : Int) (findAll : Bool) :
    List (Int × List Nat) → List (List Nat) → List (List Nat) × Bool
  | [], acc => (acc, false)
  | (s1, ixs1) :: rest, acc =>
    if upper < s1 then (acc, false)
    else
      if findAll then mmScanGo secondIxs upper findAll rest (acc ++ [ixs1 ++ secondIxs])
      else (acc ++ [ixs1 ++ secondIxs], true)

/-- The sequential mask loop over the second half (meet_middle.rs lines 54-103).
The flag check at line 60 makes every iteration after a `found` write exit
immediately, so the sequential semantics returns at the first flag write. -/
def mmGo (numbers : List Int) (mid : Nat) (sorted : List (Int × List Nat))
    (target precision : Int) (findAll : Bool) :
    List Nat → List (List Nat) → List (List Nat)
  | [], acc => acc
  | mask :: rest, acc =>
    let ixs := (maskBits mask (numbers.length - mid)).map (fun i => mid + i)
    let s := sumAt numbers ixs
    let targetSum := target - s
    let lower := targetSum - precision
    let upper := targetSum + precision
    let start := binarySearchLowerBound sorted lower
    let scanned := mmScanGo ixs upper findAll (sorted.drop start) acc
    if scanned.2 then scanned.1
    else mmGo numbers mid sorted target precision findAll rest scanned.1

/-- meet_middle.rs `find_subset_sum_meet_middle_raw`.  Note: unlike the other
three solvers, the returned list is NOT truncated to a single solution when
`find_all = false` (lines 105-111 return the collected list as is). -/
def findSubsetSumMeetMiddleRaw (numbers : List Int) (target precision : Int)
    (findAll : Bool) : List (List Nat) :=
  let n := numbers.length
  let mid := n / 2
  let sorted := List.insertionSort sumLE (firstHalfPairs numbers mid)
  mmGo numbers mid sorted target precision findAll
    (List.range (2 ^ (n - mid))) []

/-! ## Dynamic-programming solver (dynamic_prog.rs)

The solver indexes its table with `target as usize`, `precision as usize` and
`numbers[i-1] as usize` (lines 24, 30, 35, 96, 113, 114).  These wrapping
casts are modelled exactly with `usizeCast`.  The table row length is
`(target as usize) + 1 + (precision as usize)` computed in `usize` (release
mode: modulo 2^64).  The allocation panics (capacity overflow) when that
length exceeds `isize::MAX`, and `dp[0][0] = true` (line 25) panics when it is
0; both are modelled by `none`.  Whenever the row length is a valid positive
size, the loop bound `target as usize + precision as usize` equals
`rowLen - 1`, so no other indexing can panic. -/

/-- Table entry `dp[i][j]` of dynamic_prog.rs lines 24-40: reachability of sum `j` using
the first `i` elements, where an element enters only through
`let val = numbers[i-1] as usize; if j >= val` — so a negative element (whose
cast is ≥ 2^63) is never selected. -/
def dpReach (numbers : List Int) : Nat → Nat → Bool
  | 0, j => j == 0
  | i + 1, j =>
    dpReach numbers i j ||
      (usizeCast (numbers.getD i 0) ≤ j && dpReach numbers i (j - usizeCast (numbers.getD i 0)))

/-- Indices marked `true` in the backtracking path, in increasing order
(dynamic_prog.rs lines 59-63: `enumerate().filter(...)`). -/
def pathIndices (path : List Bool) : List Nat :=
  (List.range path.length).filter (fun k => path.getD k false)

/-- Function `back_track` (dynamic_prog.rs lines 45-105), threading the result list and
returning the "found and stop" boolean (`!find_all` after a successful push at
row 0). -/
def backTrack (numbers : List Int) (target precision : Int) (findAll : Bool) :
    Nat → Nat → List Bool → List (List Nat) → List (List Nat) × Bool
  | 0, _, path, acc =>
    let ixs := pathIndices path
    let s := sumAt numbers ixs
    if isMatch target precision s then (acc ++ [ixs], !findAll) else (acc, false)
  | i + 1, j, path, acc =>
    let step1 :=
      if dpReach numbers i j then
        backTrack numbers target precision findAll i j (path.set i false) acc
      else (acc, false)
    if step1.2 then step1
    else
      let val := usizeCast (numbers.getD i 0)
      if val ≤ j ∧ dpReach numbers i (j - val) then
        backTrack numbers target precision findAll i (j - val) (path.set i true) step1.1
      else (step1.1, false)

/-- The `target_range` of dynamic_prog.rs lines 108-118: `[target as usize]`
when `precision == 0`, otherwise the (possibly empty) usize range
`(target - precision) as usize ..= (target + precision) as usize` filtered to
the table width.  A negative `target - precision` wraps to a huge lower bound,
emptying the range. -/
def dpTargetRange (target precision : Int) (rowLen : Nat) : List Nat :=
  if precision = 0 then [usizeCast target]
  else
    let lower := usizeCast (target - precision)
    let upper := usizeCast (target + precision)
    (if upper < lower then [] else List.range' lower (upper - lower + 1)).filter
      (fun j => j < rowLen)

/-- The result-collection loop of dynamic_prog.rs lines 120-132: backtrack at
every reachable sum in the target range; under `find_all = false` stop as soon
as the result list is non-empty. -/
def dpOuter (numbers : List Int) (target precision : Int) (findAll : Bool)
    (rowLen : Nat) : List Nat → List (List Nat) → List (List Nat)
  | [], acc => acc
  | j :: rest, acc =>
    if j < rowLen ∧ dpReach numbers numbers.length j then
      let acc1 := (backTrack numbers target precision findAll numbers.length j
        (List.replicate numbers.length false) acc).1
      if findAll = false ∧ acc1 ≠ [] then acc1
      else dpOuter numbers target precision findAll rowLen rest acc1
    else dpOuter numbers target precision findAll rowLen rest acc

/-- dynamic_prog.rs `find_subset_sum_dp_raw`; `none` models the table
allocation / indexing panic described above. -/
def findSubsetSumDpRaw (numbers : List Int) (target precision : Int)
    (findAll : Bool) : Option (List (List Nat)) :=
  let rowLen := (usizeCast target + 1 + usizeCast precision) % 2 ^ 64
  if rowLen = 0 ∨ 2 ^ 63 - 1 < rowLen then none
  else
    some (dpOuter numbers target precision findAll rowLen
      (dpTargetRange target precision rowLen) [])

/-! ## Branch-and-bound solver (branch_bound.rs) -/

/-- Ordering used by `sorted_numbers.sort_by(|a, b| b.0.abs().cmp(&a.0.abs()))`
(branch_bound.rs line 31): descending absolute value.  Rust's `sort_by` and
`List.insertionSort` are both stable, so for this total preorder they produce
the same list. -/
def absGE (a b : Int × Nat) : Prop := b.1.natAbs ≤ a.1.natAbs

instance : DecidableRel absGE := fun a b => inferInstanceAs (Decidable (b.1.natAbs ≤ a.1.natAbs))

instance : IsTotal (Int × Nat) absGE := ⟨fun a b => Nat.le_total b.1.natAbs a.1.natAbs⟩

instance : IsTrans (Int × Nat) absGE := ⟨fun _ _ _ h h' => le_trans h' h⟩

/-- Pairs `(value, original index)` (branch_bound.rs lines 25-28: `enumerate`)
sorted by descending absolute value. -/
def bbSortedPairs (numbers : List Int) : List (Int × Nat) :=
  List.insertionSort absGE
    ((List.range numbers.length).map (fun i => (numbers.getD i 0, i)))

/-- Function `generate_tasks` (branch_bound.rs lines 96-118): enumerate every
include/exclude prefix of the first `remaining` decision levels, exclude
branch first, producing `(running sum, partial path of original indices)`
tasks in order. -/
def genTasks (vals : List Int) (imap : List Nat) :
    Nat → Nat → Int → List Nat → List (Int × List Nat)
  | 0, _, sum, path => [(sum, path)]
  | r + 1, depth, sum, path =>
    genTasks vals imap r (depth + 1) sum path ++
      genTasks vals imap r (depth + 1) (sum + vals.getD depth 0)
        (path ++ [imap.getD depth 0])

/-- The pruning test of branch_bound.rs lines 181-193 at depth `s`. -/
def bbPrune (vals : List Int) (target precision : Int) (s : Nat) (sum : Int) : Bool :=
  let remPos := ((vals.drop s).filter (fun x => 0 < x)).sum
  let remNeg := ((vals.drop s).filter (fun x => x < 0)).sum
  if precision = 0 then decide (sum + remPos < target) || decide (target < sum + remNeg)
  else decide (sum + remPos < target - precision) ||
    decide (target + precision < sum + remNeg)

/-- The `for depth in start_depth..n` loop of branch_bound.rs lines 196-235:
exclude branch, early exit check, include branch, early exit check.  The
recursive descent into `serial_branch_and_bound` is abstracted as `recur`
(instantiated with the next fuel level in `serialBB`). -/
def bbLoop (vals : List Int) (imap : List Nat) (findAll : Bool)
    (recur : Nat → Int → List Nat → List (List Nat) → List (List Nat))
    (sum : Int) (path : List Nat) :
    List Nat → List (List Nat) → List (List Nat)
  | [], acc => acc
  | d :: rest, acc =>
    let acc1 := recur (d + 1) sum path acc
    if findAll = false ∧ acc1 ≠ [] then acc1
    else
      let acc2 := recur (d + 1) (sum + vals.getD d 0) (path ++ [imap.getD d 0]) acc1
      if findAll = false ∧ acc2 ≠ [] then acc2
      else bbLoop vals imap findAll recur sum path rest acc2

/-- Function `serial_branch_and_bound` (branch_bound.rs lines 152-236): check the match
first (pushing `current_path`, and returning immediately under
`find_all = false`), then prune, then the depth loop.  `fuel` is a structural
recursion bound; every nested call strictly increases the start depth `s`, so
any `fuel ≥ n + 1 - s` makes the 0 branch unreachable (the top-level call uses
`n + 1`). -/
def serialBB (vals : List Int) (imap : List Nat) (n : Nat)
    (target precision : Int) (findAll : Bool) :
    Nat → Nat → Int → List Nat → List (List Nat) → List (List Nat)
  | 0, _, _, _, acc => acc
  | fuel + 1, s, sum, path, acc =>
    let acc1 := if isMatch target precision sum then acc ++ [path] else acc
    if isMatch target precision sum ∧ findAll = false then acc1
    else if bbPrune vals target precision s sum then acc1
    else bbLoop vals imap findAll
      (fun s' sum' path' acc' => serialBB vals imap n target precision findAll fuel s' sum' path' acc')
      sum path (List.range' s (n - s)) acc1

/-- Function `parallel_branch_and_bound` (branch_bound.rs lines 77-149): the task
prefix depth is `min(⌈n/4⌉, 10)`; each task runs the serial search from that
depth and the local results are concatenated in task order (the tasks share
no early-exit flag). -/
def bbMerged (numbers : List Int) (target precision : Int) (findAll : Bool) :
    List (List Nat) :=
  let n := numbers.length
  let pairs := bbSortedPairs numbers
  let vals := pairs.map Prod.fst
  let imap := pairs.map Prod.snd
  let pd := min ((n + 3) / 4) 10
  let tasks := genTasks vals imap pd 0 0 []
  tasks.foldl
    (fun acc t =>
      acc ++ serialBB vals imap n target precision findAll (n + 1) pd t.1 t.2 [])
    []

/-- branch_bound.rs `find_subset_sum_branch_bound_raw`: merge the parallel
tasks, then truncate to the first solution when `find_all = false` and more
than one was collected (lines 45-50). -/
def findSubsetSumBranchBoundRaw (numbers : List Int) (target precision : Int)
    (findAll : Bool) : List (List Nat) :=
  let res := bbMerged numbers target precision findAll
  if findAll = false ∧ 1 < res.length then res.take 1 else res

/-! ## Algorithm selection (lib.rs `rust_find_subset_sum`, lines 60-76)

The FFI marshalling (float scaling, buffer serialisation) is out of scope;
`solve` models the dispatch on the already-converted integer problem.  The
result is an `Option` because the dp solver can panic. -/

/-- The `match algorithm { ... }` dispatch of lib.rs lines 60-76: four exact
names, and `"auto" | _` selects by element count (≤ 25 bit-enumeration,
≤ 40 meet-in-the-middle, else branch-and-bound). -/
def solve (numbers : List Int) (target precision : Int) (findAll : Bool)
    (algorithm : String) : Option (List (List Nat)) :=
  if algorithm = "bit_enum" then
    some (findSubsetSumBitEnumRaw numbers target precision findAll)
  else if algorithm = "meet_middle" then
    some (findSubsetSumMeetMiddleRaw numbers target precision findAll)
  else if algorithm = "dp" then
    findSubsetSumDpRaw numbers target precision findAll
  else if algorithm = "branch_bound" then
    some (findSubsetSumBranchBoundRaw numbers target precision findAll)
  else
    let n := numbers.length
    if n ≤ 25 then some (findSubsetSumBitEnumRaw numbers target precision findAll)
    else if n ≤ 40 then some (findSubsetSumMeetMiddleRaw numbers target precision findAll)
    else some (findSubsetSumBranchBoundRaw numbers target precision findAll)

/-! ## Interleaved two-worker execution of meet_middle under find_all = false

meet_middle.rs lines 51-56 split the second-half masks into contiguous blocks
(`block_size = max / num_cpus + 1`), one per worker.  A worker's only
interactions with shared state are (a) reading the `found` flag at the top of
a mask iteration (line 60) and (b) appending a result and setting the flag
under one mutex each (lines 93-99).  Between (a) and (b) it computes locally,
so another worker may append in that window.  The machine below models an
execution of two workers at exactly that granularity: a `step` either begins
a mask (reads the flag; a set flag halts the worker) or completes the pending
mask (appends the first window match, if any, and sets the flag, which under
`find_all = false` halts the worker, since its inner `break` is followed by
the flag check of the next iteration). -/

/-- What one `find_all = false` mask iteration of meet_middle.rs lines 58-101
appends: the first sorted-first-half entry in the complement window, if any,
concatenated with the second-half indices of the mask. -/
def mmFirstMatch (numbers : List Int) (mid : Nat)
    (sorted : List (Int × List Nat)) (target precision : Int) (mask : Nat) :
    Option (List Nat) :=
  let ixs := (maskBits mask (numbers.length - mid)).map (fun i => mid + i)
  let s := sumAt numbers ixs
  let start := binarySearchLowerBound sorted (target - s - precision)
  match sorted.drop start with
  | [] => none
  | (s1, ixs1) :: _ =>
    if target - s + precision < s1 then none else some (ixs1 ++ ixs)

/-- One meet_middle worker: its remaining masks, the mask whose flag check it
has passed but whose result it has not yet appended, and whether it halted. -/
structure MMWorker where
  masks : List Nat
  pending : Option Nat
  halted : Bool

/-- Shared state of the two-worker meet_middle execution. -/
structure MMMachine where
  found : Bool
  results : List (List Nat)
  w0 : MMWorker
  w1 : MMWorker

/-- One scheduler step of the selected worker (see the section comment). -/
def mmStep (numbers : List Int) (mid : Nat) (sorted : List (Int × List Nat))
    (target precision : Int) (st : MMMachine) (who : Bool) : MMMachine :=
  let w := if who then st.w1 else st.w0
  let write := fun (w' : MMWorker) (found' : Bool) (res' : List (List Nat)) =>
    if who then { st with w1 := w', found := found', results := res' }
    else { st with w0 := w', found := found', results := res' }
  if w.halted then st
  else
    match w.pending with
    | none =>
      match w.masks with
      | [] => write { w with halted := true } st.found st.results
      | m :: rest =>
        if st.found then write { w with halted := true } st.found st.results
        else write { masks := rest, pending := some m, halted := false } st.found st.results
    | some m =>
      match mmFirstMatch numbers mid sorted target precision m with
      | some sol => write { w with pending := none, halted := true } true (st.results ++ [sol])
      | none => write { w with pending := none, halted := false } st.found st.results

/-- Run a schedule (list of worker choices) from an initial machine state. -/
def mmRun (numbers : List Int) (mid : Nat) (sorted : List (Int × List Nat))
    (target precision : Int) (schedule : List Bool) (st : MMMachine) : MMMachine :=
  schedule.foldl (mmStep numbers mid sorted target precision) st

/-- Initial machine state for given per-worker mask blocks. -/
def mmInit (blockA blockB : List Nat) : MMMachine :=
  { found := false, results := [],
    w0 := { masks := blockA, pending := none, halted := false },
    w1 := { masks := blockB, pending := none, halted := false } }

/-! ## Helper lemmas -/

theorem isMatch_sound {t p s : Int} (hp : 0 ≤ p) (h : isMatch t p s = true) :
    |s - t| ≤ p ∧ (p = 0 → s = t) := by
  unfold isMatch at h
  split at h
  · rename_i hp0
    subst hp0
    have : s = t := by exact_mod_cast of_decide_eq_true h
    subst this
    simp
  · have := of_decide_eq_true h
    refine ⟨this, ?_⟩
    intro hp0
    rename_i hne
    exact absurd hp0 hne

theorem isMatch_of_abs_le {t p s : Int} (h : |s - t| ≤ p) :
    isMatch t p s = true := by
  unfold isMatch
  split
  · rename_i hp0
    subst hp0
    have hst : s = t := by
      have h2 := abs_le.mp h
      omega
    simp [hst]
  · exact decide_eq_true h

theorem maskBits_pairwise (mask k : Nat) : (maskBits mask k).Pairwise (· < ·) :=
  (List.pairwise_lt_range k).filter _

theorem maskBits_lt {mask k i : Nat} (h : i ∈ maskBits mask k) : i < k := by
  have := List.mem_filter.mp h
  exact List.mem_range.mp this.1

theorem sumAt_append (numbers : List Int) (a b : List Nat) :
    sumAt numbers (a ++ b) = sumAt numbers a + sumAt numbers b := by
  simp [sumAt]

theorem sumAt_snoc (numbers : List Int) (a : List Nat) (i : Nat) :
    sumAt numbers (a ++ [i]) = sumAt numbers a + numbers.getD i 0 := by
  simp [sumAt]

theorem pathIndices_pairwise (path : List Bool) :
    (pathIndices path).Pairwise (· < ·) :=
  (List.pairwise_lt_range path.length).filter _

theorem pathIndices_lt {path : List Bool} {i : Nat} (h : i ∈ pathIndices path) :
    i < path.length := by
  have := List.mem_filter.mp h
  exact List.mem_range.mp this.1

theorem bitEnumGo_mem {numbers : List Int} {t p : Int} {fa : Bool}
    {masks : List Nat} {acc : List (List Nat)} {S : List Nat}
    (h : S ∈ bitEnumGo numbers t p fa masks acc) :
    S ∈ acc ∨ ((∃ m, S = maskBits m (min numbers.length 64)) ∧
      isMatch t p (sumAt numbers S) = true) := by
  induction masks generalizing acc with
  | nil => exact Or.inl h
  | cons m rest ih =>
    simp only [bitEnumGo] at h
    split at h
    · rename_i hm
      split at h
      · rcases ih h with h' | h'
        · rcases List.mem_append.mp h' with h'' | h''
          · exact Or.inl h''
          · have : S = maskBits m (min numbers.length 64) := by simpa using h''
            exact Or.inr ⟨⟨m, this⟩, this ▸ hm⟩
        · exact Or.inr h'
      · rcases List.mem_append.mp h with h'' | h''
        · exact Or.inl h''
        · have : S = maskBits m (min numbers.length 64) := by simpa using h''
          exact Or.inr ⟨⟨m, this⟩, this ▸ hm⟩
    · rcases ih h with h' | h'
      · exact Or.inl h'
      · exact Or.inr h'

theorem bitEnumRaw_mem {numbers : List Int} {t p : Int} {fa : Bool} {S : List Nat}
    (h : S ∈ findSubsetSumBitEnumRaw numbers t p fa) :
    (∃ m, S = maskBits m (min numbers.length 64)) ∧
      isMatch t p (sumAt numbers S) = true := by
  simp only [findSubsetSumBitEnumRaw] at h
  have h' : S ∈ bitEnumGo numbers t p fa
      (List.range (maxCombinations numbers.length)) [] := by
    split at h
    · exact List.take_subset _ _ h
    · exact h
  rcases bitEnumGo_mem h' with h'' | h''
  · simp at h''
  · exact h''

theorem firstHalfPairs_mem {numbers : List Int} {mid : Nat} {pr : Int × List Nat}
    (h : pr ∈ firstHalfPairs numbers mid) :
    ∃ m, pr = (sumAt numbers (maskBits m mid), maskBits m mid) := by
  obtain ⟨m, _, hm⟩ := List.mem_map.mp h
  exact ⟨m, hm.symm⟩

theorem bslbGo_drop_ge {arr : List (Int × List Nat)} (hs : arr.Sorted sumLE)
    (t : Int) :
    ∀ fuel left right, left ≤ right → right ≤ arr.length →
      right - left ≤ fuel →
      (∀ pr ∈ arr.drop right, t ≤ pr.1) →
      ∀ pr ∈ arr.drop (bslbGo arr t fuel left right), t ≤ pr.1 := by
  intro fuel
  induction fuel with
  | zero =>
    intro left right hlr _ hf hright pr hpr
    have heq : left = right := by omega
    simp only [bslbGo] at hpr
    subst heq
    exact hright pr hpr
  | succ fuel ih =>
    intro left right hlr hr hf hright pr hpr
    simp only [bslbGo] at hpr
    split at hpr
    · rename_i hlt
      split at hpr
      · exact ih (left + (right - left) / 2 + 1) right (by omega) hr (by omega)
          hright pr hpr
      · rename_i hcmp
        have hmlen : left + (right - left) / 2 < arr.length := by omega
        have hdrop : arr.drop (left + (right - left) / 2) =
            arr[left + (right - left) / 2] :: arr.drop (left + (right - left) / 2 + 1) :=
          List.drop_eq_getElem_cons hmlen
        rw [List.getD_eq_getElem arr (0, []) hmlen] at hcmp
        have hmidge : t ≤ (arr[left + (right - left) / 2]).1 := by omega
        have hnew : ∀ pr' ∈ arr.drop (left + (right - left) / 2), t ≤ pr'.1 := by
          intro pr' hpr'
          rw [hdrop] at hpr'
          rcases List.mem_cons.mp hpr' with h1 | h1
          · rw [h1]; exact hmidge
          · have hpw : (arr.drop (left + (right - left) / 2)).Pairwise sumLE :=
              hs.sublist (List.drop_sublist _ _)
            rw [hdrop] at hpw
            have hrel : sumLE (arr[left + (right - left) / 2]) pr' :=
              (List.pairwise_cons.mp hpw).1 pr' h1
            exact le_trans hmidge hrel
        exact ih left (left + (right - left) / 2) (by omega) (by omega) (by omega)
          hnew pr hpr
    · have heq : left = right := by omega
      subst heq
      exact hright pr hpr

theorem binarySearchLowerBound_ge {arr : List (Int × List Nat)}
    (hs : arr.Sorted sumLE) (t : Int) :
    ∀ pr ∈ arr.drop (binarySearchLowerBound arr t), t ≤ pr.1 := by
  have hempty : ∀ pr ∈ arr.drop arr.length, t ≤ pr.1 := by
    simp [List.drop_length]
  exact bslbGo_drop_ge hs t arr.length 0 arr.length (Nat.zero_le _) le_rfl
    (by omega) hempty

theorem mmScanGo_mem {secondIxs : List Nat} {upper : Int} {fa : Bool}
    {l : List (Int × List Nat)} {acc : List (List Nat)} {S : List Nat}
    (h : S ∈ (mmScanGo secondIxs upper fa l acc).1) :
    S ∈ acc ∨ ∃ pr ∈ l, pr.1 ≤ upper ∧ S = pr.2 ++ secondIxs := by
  induction l generalizing acc with
  | nil =>
    simp only [mmScanGo] at h
    exact Or.inl h
  | cons hd rest ih =>
    obtain ⟨s1, ixs1⟩ := hd
    simp only [mmScanGo] at h
    split at h
    · exact Or.inl h
    · rename_i hle
      split at h
      · rcases ih h with h' | h'
        · rcases List.mem_append.mp h' with h'' | h''
          · exact Or.inl h''
          · have hS : S = ixs1 ++ secondIxs := by simpa using h''
            exact Or.inr ⟨(s1, ixs1), List.mem_cons_self _ _, by omega, hS⟩
        · obtain ⟨pr, hpr, hup, hS⟩ := h'
          exact Or.inr ⟨pr, List.mem_cons_of_mem _ hpr, hup, hS⟩
      · rcases List.mem_append.mp h with h'' | h''
        · exact Or.inl h''
        · have hS : S = ixs1 ++ secondIxs := by simpa using h''
          exact Or.inr ⟨(s1, ixs1), List.mem_cons_self _ _, by omega, hS⟩

theorem mmGo_mem {numbers : List Int} {mid : Nat} {sorted : List (Int × List Nat)}
    {t p : Int} {fa : Bool} {masks : List Nat} {acc : List (List Nat)} {S : List Nat}
    (hs : sorted.Sorted sumLE)
    (h : S ∈ mmGo numbers mid sorted t p fa masks acc) :
    S ∈ acc ∨ ∃ pr m, pr ∈ sorted ∧
      t - sumAt numbers ((maskBits m (numbers.length - mid)).map (fun i => mid + i)) - p
        ≤ pr.1 ∧
      pr.1 ≤
        t - sumAt numbers ((maskBits m (numbers.length - mid)).map (fun i => mid + i)) + p ∧
      S = pr.2 ++ (maskBits m (numbers.length - mid)).map (fun i => mid + i) := by
  induction masks generalizing acc with
  | nil => exact Or.inl h
  | cons m rest ih =>
    simp only [mmGo] at h
    have hscan : ∀ T, T ∈ (mmScanGo ((maskBits m (numbers.length - mid)).map (fun i => mid + i))
        (t - sumAt numbers ((maskBits m (numbers.length - mid)).map (fun i => mid + i)) + p)
        fa
        (sorted.drop (binarySearchLowerBound sorted
          (t - sumAt numbers ((maskBits m (numbers.length - mid)).map (fun i => mid + i)) - p)))
        acc).1 →
        T ∈ acc ∨ ∃ pr m', pr ∈ sorted ∧
          t - sumAt numbers ((maskBits m' (numbers.length - mid)).map (fun i => mid + i)) - p
            ≤ pr.1 ∧
          pr.1 ≤ t - sumAt numbers
            ((maskBits m' (numbers.length - mid)).map (fun i => mid + i)) + p ∧
          T = pr.2 ++ (maskBits m' (numbers.length - mid)).map (fun i => mid + i) := by
      intro T hT
      rcases mmScanGo_mem hT with h' | h'
      · exact Or.inl h'
      · obtain ⟨pr, hpr, hup, hS⟩ := h'
        refine Or.inr ⟨pr, m, List.drop_subset _ _ hpr, ?_, hup, hS⟩
        exact binarySearchLowerBound_ge hs _ pr hpr
    split at h
    · rcases hscan S h with h' | h'
      · exact Or.inl h'
      · exact Or.inr h'
    · rcases ih h with h' | h'
      · rcases hscan S h' with h'' | h''
        · exact Or.inl h''
        · exact Or.inr h''
      · exact Or.inr h'

theorem meetMiddleRaw_mem {numbers : List Int} {t p : Int} {fa : Bool} {S : List Nat}
    (h : S ∈ findSubsetSumMeetMiddleRaw numbers t p fa) :
    isMatch t p (sumAt numbers S) = true ∧
      S.Pairwise (· < ·) ∧ ∀ i ∈ S, i < numbers.length := by
  have hs : (List.insertionSort sumLE
      (firstHalfPairs numbers (numbers.length / 2))).Sorted sumLE :=
    List.sorted_insertionSort sumLE _
  simp only [findSubsetSumMeetMiddleRaw] at h
  rcases mmGo_mem hs h with h' | h'
  · simp at h'
  · obtain ⟨pr, m, hpr, hlow, hup, hS⟩ := h'
    have hpr' : pr ∈ firstHalfPairs numbers (numbers.length / 2) :=
      (List.mem_insertionSort sumLE).mp hpr
    obtain ⟨mm, hpreq⟩ := firstHalfPairs_mem hpr'
    have hfst : pr.1 = sumAt numbers pr.2 := by rw [hpreq]
    have hsnd : pr.2 = maskBits mm (numbers.length / 2) := by rw [hpreq]
    refine ⟨?_, ?_, ?_⟩
    · apply isMatch_of_abs_le
      rw [hS, sumAt_append]
      rw [hfst] at hlow hup
      rw [abs_le]
      constructor <;> omega
    · rw [hS]
      apply List.pairwise_append.mpr
      refine ⟨?_, ?_, ?_⟩
      · rw [hsnd]; exact maskBits_pairwise _ _
      · exact (maskBits_pairwise _ _).map _ (fun a b hab => by omega)
      · intro x hx y hy
        have hxlt : x < numbers.length / 2 := by
          rw [hsnd] at hx; exact maskBits_lt hx
        obtain ⟨c, _, hc⟩ := List.mem_map.mp hy
        omega
    · intro i hi
      rw [hS] at hi
      rcases List.mem_append.mp hi with h1 | h1
      · have : i < numbers.length / 2 := by
          rw [hsnd] at h1; exact maskBits_lt h1
        have := Nat.div_le_self numbers.length 2
        omega
      · obtain ⟨c, hc, hci⟩ := List.mem_map.mp h1
        have := maskBits_lt hc
        omega

theorem backTrack_mem {numbers : List Int} {t p : Int} {fa : Bool} :
    ∀ {i j : Nat} {path : List Bool} {acc : List (List Nat)} {S : List Nat},
      S ∈ (backTrack numbers t p fa i j path acc).1 →
      S ∈ acc ∨ ∃ path' : List Bool, path'.length = path.length ∧
        S = pathIndices path' ∧ isMatch t p (sumAt numbers S) = true := by
  intro i
  induction i with
  | zero =>
    intro j path acc S h
    simp only [backTrack] at h
    split at h
    · rename_i hm
      rcases List.mem_append.mp h with h1 | h1
      · exact Or.inl h1
      · have hS : S = pathIndices path := by simpa using h1
        exact Or.inr ⟨path, rfl, hS, hS ▸ hm⟩
    · exact Or.inl h
  | succ i ih =>
    intro j path acc S h
    simp only [backTrack] at h
    by_cases hreach : dpReach numbers i j = true
    · rw [if_pos hreach] at h
      split at h
      · rcases ih h with h1 | ⟨path', hlen, hS, hm⟩
        · exact Or.inl h1
        · exact Or.inr ⟨path', by simpa using hlen, hS, hm⟩
      · split at h
        · rcases ih h with h1 | ⟨path', hlen, hS, hm⟩
          · rcases ih h1 with h2 | ⟨path', hlen, hS, hm⟩
            · exact Or.inl h2
            · exact Or.inr ⟨path', by simpa using hlen, hS, hm⟩
          · exact Or.inr ⟨path', by simpa using hlen, hS, hm⟩
        · have h1 : S ∈ (backTrack numbers t p fa i j (path.set i false) acc).1 := h
          rcases ih h1 with h2 | ⟨path', hlen, hS, hm⟩
          · exact Or.inl h2
          · exact Or.inr ⟨path', by simpa using hlen, hS, hm⟩
    · rw [if_neg hreach] at h
      split at h
      · rename_i hcond
        simp at hcond
      · split at h
        · rcases ih h with h1 | ⟨path', hlen, hS, hm⟩
          · exact Or.inl h1
          · exact Or.inr ⟨path', by simpa using hlen, hS, hm⟩
        · exact Or.inl h

theorem dpOuter_mem {numbers : List Int} {t p : Int} {fa : Bool} {rowLen : Nat} :
    ∀ {js : List Nat} {acc : List (List Nat)} {S : List Nat},
      S ∈ dpOuter numbers t p fa rowLen js acc →
      S ∈ acc ∨ ∃ path' : List Bool, path'.length = numbers.length ∧
        S = pathIndices path' ∧ isMatch t p (sumAt numbers S) = true := by
  intro js
  induction js with
  | nil => exact fun h => Or.inl h
  | cons j rest ih =>
    intro acc S h
    simp only [dpOuter] at h
    split at h
    · split at h
      · rcases backTrack_mem h with h1 | ⟨path', hlen, hS, hm⟩
        · exact Or.inl h1
        · exact Or.inr ⟨path', by simpa using hlen, hS, hm⟩
      · rcases ih h with h1 | h1
        · rcases backTrack_mem h1 with h2 | ⟨path', hlen, hS, hm⟩
          · exact Or.inl h2
          · exact Or.inr ⟨path', by simpa using hlen, hS, hm⟩
        · exact Or.inr h1
    · rcases ih h with h1 | h1
      · exact Or.inl h1
      · exact Or.inr h1

theorem dpRaw_mem {numbers : List Int} {t p : Int} {fa : Bool}
    {res : List (List Nat)} {S : List Nat}
    (h : findSubsetSumDpRaw numbers t p fa = some res) (hS : S ∈ res) :
    isMatch t p (sumAt numbers S) = true ∧
      S.Pairwise (· < ·) ∧ ∀ i ∈ S, i < numbers.length := by
  simp only [findSubsetSumDpRaw] at h
  split at h
  · exact absurd h (by simp)
  · have hres : res = dpOuter numbers t p fa
        ((usizeCast t + 1 + usizeCast p) % 2 ^ 64)
        (dpTargetRange t p ((usizeCast t + 1 + usizeCast p) % 2 ^ 64)) [] := by
      injection h with h'
      exact h'.symm
    rw [hres] at hS
    rcases dpOuter_mem hS with h1 | ⟨path', hlen, hS', hm⟩
    · simp at h1
    · refine ⟨hm, ?_, ?_⟩
      · rw [hS']; exact pathIndices_pairwise path'
      · intro i hi
        rw [hS'] at hi
        have := pathIndices_lt hi
        omega

theorem bbSortedPairs_mem {numbers : List Int} {pr : Int × Nat}
    (h : pr ∈ bbSortedPairs numbers) :
    pr.1 = numbers.getD pr.2 0 ∧ pr.2 < numbers.length := by
  have h' : pr ∈ (List.range numbers.length).map (fun i => (numbers.getD i 0, i)) :=
    (List.mem_insertionSort absGE).mp h
  obtain ⟨i, hi, hpr⟩ := List.mem_map.mp h'
  rw [← hpr]
  exact ⟨rfl, List.mem_range.mp hi⟩

theorem bbSortedPairs_length (numbers : List Int) :
    (bbSortedPairs numbers).length = numbers.length := by
  simp [bbSortedPairs]

theorem bbSortedPairs_getD {numbers : List Int} {d : Nat}
    (hd : d < numbers.length) :
    ((bbSortedPairs numbers).map Prod.fst).getD d 0 =
      numbers.getD (((bbSortedPairs numbers).map Prod.snd).getD d 0) 0 ∧
    ((bbSortedPairs numbers).map Prod.snd).getD d 0 < numbers.length := by
  have hlen : d < (bbSortedPairs numbers).length := by
    rw [bbSortedPairs_length]; exact hd
  have hmem : (bbSortedPairs numbers)[d] ∈ bbSortedPairs numbers :=
    List.getElem_mem hlen
  have hprops := bbSortedPairs_mem hmem
  have h1 : ((bbSortedPairs numbers).map Prod.fst).getD d 0 =
      ((bbSortedPairs numbers)[d]).1 := by
    rw [List.getD_eq_getElem _ _ (by simpa using hlen)]
    simp
  have h2 : ((bbSortedPairs numbers).map Prod.snd).getD d 0 =
      ((bbSortedPairs numbers)[d]).2 := by
    rw [List.getD_eq_getElem _ _ (by simpa using hlen)]
    simp
  rw [h1, h2]
  exact hprops

theorem bbLoop_sound {numbers : List Int} {t p : Int} {fa : Bool}
    {vals : List Int} {imap : List Nat}
    (recur : Nat → Int → List Nat → List (List Nat) → List (List Nat))
    (Hrec : ∀ s' sum' path' acc',
      sum' = sumAt numbers path' → (∀ i ∈ path', i < numbers.length) →
      (∀ S ∈ acc', isMatch t p (sumAt numbers S) = true ∧
        ∀ i ∈ S, i < numbers.length) →
      ∀ S ∈ recur s' sum' path' acc',
        isMatch t p (sumAt numbers S) = true ∧ ∀ i ∈ S, i < numbers.length)
    (Hvi : ∀ d, d < numbers.length →
      vals.getD d 0 = numbers.getD (imap.getD d 0) 0 ∧
        imap.getD d 0 < numbers.length) :
    ∀ (ds : List Nat) (sum : Int) (path : List Nat) (acc : List (List Nat)),
      (∀ d ∈ ds, d < numbers.length) →
      sum = sumAt numbers path → (∀ i ∈ path, i < numbers.length) →
      (∀ S ∈ acc, isMatch t p (sumAt numbers S) = true ∧
        ∀ i ∈ S, i < numbers.length) →
      ∀ S ∈ bbLoop vals imap fa recur sum path ds acc,
        isMatch t p (sumAt numbers S) = true ∧ ∀ i ∈ S, i < numbers.length := by
  intro ds
  induction ds with
  | nil =>
    intro sum path acc _ _ _ hacc S h
    exact hacc S h
  | cons d rest ih =>
    intro sum path acc hds hsum hpath hacc S h
    have hd : d < numbers.length := hds d (List.mem_cons_self _ _)
    have hrest : ∀ d' ∈ rest, d' < numbers.length :=
      fun d' hd' => hds d' (List.mem_cons_of_mem _ hd')
    have hacc1 : ∀ T ∈ recur (d + 1) sum path acc,
        isMatch t p (sumAt numbers T) = true ∧ ∀ i ∈ T, i < numbers.length :=
      Hrec _ _ _ _ hsum hpath hacc
    have hsum2 : sum + vals.getD d 0 =
        sumAt numbers (path ++ [imap.getD d 0]) := by
      rw [sumAt_snoc, ← hsum, (Hvi d hd).1]
    have hpath2 : ∀ i ∈ path ++ [imap.getD d 0], i < numbers.length := by
      intro i hi
      rcases List.mem_append.mp hi with h1 | h1
      · exact hpath i h1
      · have : i = imap.getD d 0 := by simpa using h1
        rw [this]
        exact (Hvi d hd).2
    have hacc2 : ∀ T ∈ recur (d + 1) (sum + vals.getD d 0)
        (path ++ [imap.getD d 0]) (recur (d + 1) sum path acc),
        isMatch t p (sumAt numbers T) = true ∧ ∀ i ∈ T, i < numbers.length :=
      Hrec _ _ _ _ hsum2 hpath2 hacc1
    simp only [bbLoop] at h
    split at h
    · exact hacc1 S h
    · split at h
      · exact hacc2 S h
      · exact ih sum path _ hrest hsum hpath hacc2 S h

theorem serialBB_sound {numbers : List Int} {t p : Int} {fa : Bool}
    {vals : List Int} {imap : List Nat}
    (Hvi : ∀ d, d < numbers.length →
      vals.getD d 0 = numbers.getD (imap.getD d 0) 0 ∧
        imap.getD d 0 < numbers.length) :
    ∀ (fuel s : Nat) (sum : Int) (path : List Nat) (acc : List (List Nat)),
      sum = sumAt numbers path → (∀ i ∈ path, i < numbers.length) →
      (∀ S ∈ acc, isMatch t p (sumAt numbers S) = true ∧
        ∀ i ∈ S, i < numbers.length) →
      ∀ S ∈ serialBB vals imap numbers.length t p fa fuel s sum path acc,
        isMatch t p (sumAt numbers S) = true ∧ ∀ i ∈ S, i < numbers.length := by
  intro fuel
  induction fuel with
  | zero =>
    intro s sum path acc _ _ hacc S h
    exact hacc S h
  | succ fuel ih =>
    intro s sum path acc hsum hpath hacc S h
    have hacc1 : ∀ T ∈ (if isMatch t p sum then acc ++ [path] else acc),
        isMatch t p (sumAt numbers T) = true ∧ ∀ i ∈ T, i < numbers.length := by
      intro T hT
      split at hT
      · rename_i hm
        rcases List.mem_append.mp hT with h1 | h1
        · exact hacc T h1
        · have hTp : T = path := by simpa using h1
          subst hTp
          exact ⟨hsum ▸ hm, hpath⟩
      · exact hacc T hT
    simp only [serialBB] at h
    split at h
    · exact hacc1 S h
    · split at h
      · exact hacc1 S h
      · exact bbLoop_sound _ (fun s' => ih s') Hvi _ sum path _
          (fun d hd => by
            have := List.mem_range'_1.mp hd
            omega)
          hsum hpath hacc1 S h

theorem genTasks_mem {numbers : List Int} {vals : List Int} {imap : List Nat}
    (Hvi : ∀ d, d < numbers.length →
      vals.getD d 0 = numbers.getD (imap.getD d 0) 0 ∧
        imap.getD d 0 < numbers.length) :
    ∀ (r depth : Nat) (sum : Int) (path : List Nat) (tk : Int × List Nat),
      depth + r ≤ numbers.length →
      sum = sumAt numbers path → (∀ i ∈ path, i < numbers.length) →
      tk ∈ genTasks vals imap r depth sum path →
      tk.1 = sumAt numbers tk.2 ∧ ∀ i ∈ tk.2, i < numbers.length := by
  intro r
  induction r with
  | zero =>
    intro depth sum path tk _ hsum hpath h
    have : tk = (sum, path) := by simpa [genTasks] using h
    rw [this]
    exact ⟨hsum, hpath⟩
  | succ r ih =>
    intro depth sum path tk hdep hsum hpath h
    simp only [genTasks] at h
    rcases List.mem_append.mp h with h1 | h1
    · exact ih (depth + 1) sum path tk (by omega) hsum hpath h1
    · have hd : depth < numbers.length := by omega
      have hsum2 : sum + vals.getD depth 0 =
          sumAt numbers (path ++ [imap.getD depth 0]) := by
        rw [sumAt_snoc, ← hsum, (Hvi depth hd).1]
      have hpath2 : ∀ i ∈ path ++ [imap.getD depth 0], i < numbers.length := by
        intro i hi
        rcases List.mem_append.mp hi with h2 | h2
        · exact hpath i h2
        · have : i = imap.getD depth 0 := by simpa using h2
          rw [this]
          exact (Hvi depth hd).2
      exact ih (depth + 1) _ _ tk (by omega) hsum2 hpath2 h1

theorem bbMerged_mem {numbers : List Int} {t p : Int} {fa : Bool} {S : List Nat}
    (h : S ∈ bbMerged numbers t p fa) :
    isMatch t p (sumAt numbers S) = true ∧ ∀ i ∈ S, i < numbers.length := by
  have Hvi : ∀ d, d < numbers.length →
      ((bbSortedPairs numbers).map Prod.fst).getD d 0 =
        numbers.getD (((bbSortedPairs numbers).map Prod.snd).getD d 0) 0 ∧
      ((bbSortedPairs numbers).map Prod.snd).getD d 0 < numbers.length :=
    fun d hd => bbSortedPairs_getD hd
  have hfold : ∀ (tasks : List (Int × List Nat)) (acc : List (List Nat)),
      (∀ T ∈ acc, isMatch t p (sumAt numbers T) = true ∧
        ∀ i ∈ T, i < numbers.length) →
      (∀ tk ∈ tasks, tk.1 = sumAt numbers tk.2 ∧
        ∀ i ∈ tk.2, i < numbers.length) →
      ∀ T ∈ tasks.foldl
        (fun acc tk => acc ++ serialBB ((bbSortedPairs numbers).map Prod.fst)
          ((bbSortedPairs numbers).map Prod.snd) numbers.length t p fa
          (numbers.length + 1) (min ((numbers.length + 3) / 4) 10) tk.1 tk.2 []) acc,
        isMatch t p (sumAt numbers T) = true ∧ ∀ i ∈ T, i < numbers.length := by
    intro tasks
    induction tasks with
    | nil => exact fun acc hacc _ T hT => hacc T hT
    | cons tk rest ih =>
      intro acc hacc htasks T hT
      simp only [List.foldl_cons] at hT
      refine ih _ ?_ (fun tk' h' => htasks tk' (List.mem_cons_of_mem _ h')) T hT
      intro T' hT'
      rcases List.mem_append.mp hT' with h1 | h1
      · exact hacc T' h1
      · have htk := htasks tk (List.mem_cons_self _ _)
        exact serialBB_sound Hvi _ _ tk.1 tk.2 [] htk.1 htk.2 (by simp) T' h1
  have htasks : ∀ tk ∈ genTasks ((bbSortedPairs numbers).map Prod.fst)
      ((bbSortedPairs numbers).map Prod.snd) (min ((numbers.length + 3) / 4) 10) 0 0 [],
      tk.1 = sumAt numbers tk.2 ∧ ∀ i ∈ tk.2, i < numbers.length := by
    intro tk htk
    refine genTasks_mem Hvi _ 0 0 [] tk ?_ (by simp [sumAt]) (by simp) htk
    have h4 : (numbers.length + 3) / 4 ≤ numbers.length ∨ numbers.length = 0 := by omega
    omega
  exact hfold _ [] (by simp) htasks S h

theorem branchBoundRaw_mem {numbers : List Int} {t p : Int} {fa : Bool} {S : List Nat}
    (h : S ∈ findSubsetSumBranchBoundRaw numbers t p fa) :
    isMatch t p (sumAt numbers S) = true ∧ ∀ i ∈ S, i < numbers.length := by
  simp only [findSubsetSumBranchBoundRaw] at h
  have h' : S ∈ bbMerged numbers t p fa := by
    split at h
    · exact List.take_subset _ _ h
    · exact h
  exact bbMerged_mem h'

theorem isMatch_zero_iff (t p : Int) : isMatch t p 0 = true ↔ |t| ≤ p := by
  unfold isMatch
  have habs : |(0 : Int) - t| = |t| := by rw [zero_sub, abs_neg]
  split
  · rename_i h0
    subst h0
    constructor
    · intro h
      have h' : (0 : Int) = t := by exact_mod_cast of_decide_eq_true h
      simp [← h']
    · intro h
      have h2 := abs_le.mp h
      have h' : t = 0 := by omega
      simp [h']
  · rw [decide_eq_true_iff, habs]

theorem usizeCast_of_nonneg {v : Int} (h0 : 0 ≤ v) (h1 : v < 2 ^ 64) :
    usizeCast v = v.toNat := by
  unfold usizeCast
  have : v % 2 ^ 64 = v := by omega
  rw [this]

theorem bitEnumRaw_empty (t p : Int) (fa : Bool) :
    findSubsetSumBitEnumRaw [] t p fa = if |t| ≤ p then [[]] else [] := by
  have hres : bitEnumGo [] t p fa [0] [] = if |t| ≤ p then [[]] else [] := by
    have hshow : bitEnumGo [] t p fa [0] [] =
        if isMatch t p 0 then
          (if fa then bitEnumGo [] t p fa [] [[]] else [[]])
        else bitEnumGo [] t p fa [] [] := rfl
    rw [hshow]
    by_cases hm : |t| ≤ p
    · rw [if_pos ((isMatch_zero_iff t p).mpr hm), if_pos hm]
      cases fa <;> rfl
    · rw [if_neg (fun hc => hm ((isMatch_zero_iff t p).mp hc)), if_neg hm]
      rfl
  have hrange : List.range (maxCombinations (List.length ([] : List Int))) = [0] := by
    decide
  simp only [findSubsetSumBitEnumRaw, hrange, hres]
  by_cases hm : |t| ≤ p
  · rw [if_pos hm, if_neg (by simp)]
  · rw [if_neg hm, if_neg (by simp)]



theorem meetMiddleRaw_empty (t p : Int) (fa : Bool) :
    findSubsetSumMeetMiddleRaw [] t p fa = if |t| ≤ p then [[]] else [] := by
  have hcollapse : ∀ pr : List (List Nat) × Bool,
      (if pr.2 = true then pr.1 else pr.1) = pr.1 := by
    intro pr
    split <;> rfl
  have h1 : findSubsetSumMeetMiddleRaw [] t p fa =
      (if (mmScanGo [] (t - 0 + p) fa
          (List.drop (binarySearchLowerBound [((0 : Int), ([] : List Nat))] (t - 0 - p))
            [((0 : Int), ([] : List Nat))]) []).2 = true then
        (mmScanGo [] (t - 0 + p) fa
          (List.drop (binarySearchLowerBound [((0 : Int), ([] : List Nat))] (t - 0 - p))
            [((0 : Int), ([] : List Nat))]) []).1
      else
        (mmScanGo [] (t - 0 + p) fa
          (List.drop (binarySearchLowerBound [((0 : Int), ([] : List Nat))] (t - 0 - p))
            [((0 : Int), ([] : List Nat))]) []).1) := rfl
  rw [h1, hcollapse]
  by_cases hgt : (0 : Int) < t - 0 - p
  · have hbs : binarySearchLowerBound [((0 : Int), ([] : List Nat))] (t - 0 - p) = 1 := by
      show (if (0 : Int) < t - 0 - p then (1 : Nat) else 0) = 1
      rw [if_pos hgt]
    rw [hbs]
    have hnot : ¬ |t| ≤ p := by
      intro hc
      have := abs_le.mp hc
      omega
    rw [if_neg hnot]
    rfl
  · have hbs : binarySearchLowerBound [((0 : Int), ([] : List Nat))] (t - 0 - p) = 0 := by
      show (if (0 : Int) < t - 0 - p then (1 : Nat) else 0) = 0
      rw [if_neg hgt]
    rw [hbs]
    have hstep : mmScanGo [] (t - 0 + p) fa
        (List.drop 0 [((0 : Int), ([] : List Nat))]) [] =
        (if t - 0 + p < 0 then (([] : List (List Nat)), false)
         else if fa = true then ([[]], false) else ([[]], true)) := rfl
    rw [hstep]
    by_cases hup : t - 0 + p < 0
    · rw [if_pos hup]
      have hnot : ¬ |t| ≤ p := by
        intro hc
        have := abs_le.mp hc
        omega
      rw [if_neg hnot]
    · rw [if_neg hup]
      have hyes : |t| ≤ p := by
        rw [abs_le]
        constructor <;> omega
      rw [if_pos hyes]
      cases fa <;> rfl

theorem branchBoundRaw_empty (t p : Int) (fa : Bool) :
    findSubsetSumBranchBoundRaw [] t p fa = if |t| ≤ p then [[]] else [] := by
  have hser : serialBB [] [] 0 t p fa 1 0 0 [] [] =
      (if isMatch t p 0 = true ∧ fa = false then
        (if isMatch t p 0 = true then [[]] else [])
      else if bbPrune [] t p 0 0 = true then
        (if isMatch t p 0 = true then [[]] else [])
      else (if isMatch t p 0 = true then [[]] else [])) := rfl
  have hser2 : serialBB [] [] 0 t p fa 1 0 0 [] [] =
      (if isMatch t p 0 = true then [[]] else []) := by
    rw [hser]
    split
    · rfl
    · split <;> rfl
  have hbm : bbMerged [] t p fa = serialBB [] [] 0 t p fa 1 0 0 [] [] := rfl
  simp only [findSubsetSumBranchBoundRaw, hbm, hser2]
  by_cases hm : |t| ≤ p
  · rw [if_pos ((isMatch_zero_iff t p).mpr hm), if_neg (by simp), if_pos hm]
  · rw [if_neg (fun hc => hm ((isMatch_zero_iff t p).mp hc)), if_neg (by simp),
      if_neg hm]

theorem dpOuter_skip {t p : Int} {fa : Bool} {rowLen : Nat} :
    ∀ (js : List Nat) (acc : List (List Nat)), (∀ j ∈ js, j ≠ 0) →
      dpOuter [] t p fa rowLen js acc = acc := by
  intro js
  induction js with
  | nil =>
    intro acc _
    rfl
  | cons j rest ih =>
    intro acc hj
    have hj0 : j ≠ 0 := hj j (List.mem_cons_self _ _)
    have hreach : dpReach [] (List.length ([] : List Int)) j = false := by
      simp only [List.length_nil, dpReach]
      simpa using hj0
    simp only [dpOuter]
    rw [if_neg (by
      rintro ⟨_, hcon⟩
      rw [hreach] at hcon
      exact Bool.false_ne_true hcon)]
    exact ih acc (fun j' hj' => hj j' (List.mem_cons_of_mem _ hj'))

theorem dpRaw_empty (t p : Int) (fa : Bool) (hp : 0 ≤ p) (ht : 0 ≤ t)
    (hb : t + 1 + p < 2 ^ 63) :
    findSubsetSumDpRaw [] t p fa =
      some (if (p = 0 ∧ t = 0) ∨ (0 < p ∧ t = p) then [[]] else []) := by
  have hct : usizeCast t = t.toNat := usizeCast_of_nonneg ht (by omega)
  have hcp : usizeCast p = p.toNat := usizeCast_of_nonneg hp (by omega)
  have hrow : (usizeCast t + 1 + usizeCast p) % 2 ^ 64 = t.toNat + 1 + p.toNat := by
    rw [hct, hcp]
    apply Nat.mod_eq_of_lt
    omega
  have hguard : ¬ (t.toNat + 1 + p.toNat = 0 ∨
      2 ^ 63 - 1 < t.toNat + 1 + p.toNat) := by
    omega
  have hbt0 : ∀ (j : Nat) (acc : List (List Nat)),
      (backTrack [] t p fa 0 j [] acc).1 =
        if isMatch t p 0 = true then acc ++ [[]] else acc := by
    intro j acc
    show (if isMatch t p 0 = true then (acc ++ [[]], !fa) else (acc, false)).1 = _
    split <;> rfl
  simp only [findSubsetSumDpRaw]
  rw [hrow, if_neg hguard]
  refine congrArg some ?_
  by_cases hp0 : p = 0
  · subst hp0
    have htr : dpTargetRange t 0 (t.toNat + 1 + Int.toNat 0) = [t.toNat] := by
      unfold dpTargetRange
      rw [if_pos rfl, hct]
    rw [htr]
    by_cases ht0 : t = 0
    · subst ht0
      cases fa <;> decide
    · have htn : t.toNat ≠ 0 := by omega
      rw [dpOuter_skip [t.toNat] [] (by
        intro j hj
        have hjj : j = t.toNat := by simpa using hj
        rw [hjj]
        exact htn)]
      rw [if_neg (by
        rintro (⟨_, hc⟩ | ⟨hc, _⟩)
        · exact ht0 hc
        · exact lt_irrefl 0 hc)]
  · have hppos : 0 < p := lt_of_le_of_ne hp (Ne.symm hp0)
    simp only [dpTargetRange, if_neg hp0]
    by_cases htp : t < p
    · have hlow : usizeCast (t - p) = (t - p + 2 ^ 64).toNat := by
        unfold usizeCast
        have : (t - p) % 2 ^ 64 = t - p + 2 ^ 64 := by omega
        rw [this]
      have hup : usizeCast (t + p) = (t + p).toNat :=
        usizeCast_of_nonneg (by omega) (by omega)
      have hcomp : usizeCast (t + p) < usizeCast (t - p) := by
        rw [hlow, hup]
        omega
      rw [if_pos hcomp]
      rw [if_neg (by
        rintro (⟨hc, _⟩ | ⟨_, hc⟩)
        · exact hp0 hc
        · omega)]
      rfl
    · have hlow : usizeCast (t - p) = (t - p).toNat :=
        usizeCast_of_nonneg (by omega) (by omega)
      have hup : usizeCast (t + p) = (t + p).toNat :=
        usizeCast_of_nonneg (by omega) (by omega)
      have hcomp : ¬ usizeCast (t + p) < usizeCast (t - p) := by
        rw [hlow, hup]
        omega
      rw [if_neg hcomp]
      have hfilter : (List.range' (usizeCast (t - p))
          (usizeCast (t + p) - usizeCast (t - p) + 1)).filter
          (fun j => j < t.toNat + 1 + p.toNat) =
          List.range' (usizeCast (t - p)) (usizeCast (t + p) - usizeCast (t - p) + 1) := by
        apply List.filter_eq_self.mpr
        intro j hj
        have := List.mem_range'_1.mp hj
        rw [hlow, hup] at this
        simp only [decide_eq_true_eq]
        omega
      rw [hfilter]
      by_cases hteq : t = p
      · have hl0 : usizeCast (t - p) = 0 := by
          rw [hlow]
          omega
        rw [hl0]
        rw [List.range'_succ 0 (usizeCast (t + p) - 0) 1]
        have hm : isMatch t p 0 = true := by
          rw [isMatch_zero_iff, abs_le]
          constructor <;> omega
        have hrest : ∀ j ∈ List.range' (0 + 1) (usizeCast (t + p) - 0) 1, j ≠ 0 := by
          intro j hj
          have := List.mem_range'_1.mp hj
          omega
        simp only [dpOuter, List.length_nil, List.replicate_zero]
        rw [if_pos (by
          refine ⟨by omega, ?_⟩
          rfl)]
        rw [hbt0]
        rw [if_pos hm]
        rw [if_pos (Or.inr ⟨hppos, hteq⟩)]
        split
        · rfl
        · exact dpOuter_skip _ _ hrest
      · have hall : ∀ j ∈ List.range' (usizeCast (t - p))
            (usizeCast (t + p) - usizeCast (t - p) + 1), j ≠ 0 := by
          intro j hj
          have := List.mem_range'_1.mp hj
          rw [hlow] at this
          omega
        rw [dpOuter_skip _ _ hall]
        rw [if_neg (by
          rintro (⟨hc, _⟩ | ⟨_, hc⟩)
          · exact hp0 hc
          · exact hteq hc)]

/-! ## Claim theorems -/

/-- C1: Soundness of every solver — for every Problem and every Solution `S`
in the ResultSet returned by any of the four solvers, the sum of the elements
of `numbers` at the indices in `S` lies within `precision` of `target`; when
`precision = 0` the sum equals `target` exactly.  (The dp solver is quantified
over its non-panicking executions `some res`.) -/
theorem claim_C1_solver_soundness (numbers : List Int) (target precision : Int)
    (findAll : Bool) (hp : 0 ≤ precision) :
    (∀ S ∈ findSubsetSumBitEnumRaw numbers target precision findAll,
      |sumAt numbers S - target| ≤ precision ∧
        (precision = 0 → sumAt numbers S = target)) ∧
    (∀ S ∈ findSubsetSumMeetMiddleRaw numbers target precision findAll,
      |sumAt numbers S - target| ≤ precision ∧
        (precision = 0 → sumAt numbers S = target)) ∧
    (∀ res, findSubsetSumDpRaw numbers target precision findAll = some res →
      ∀ S ∈ res, |sumAt numbers S - target| ≤ precision ∧
        (precision = 0 → sumAt numbers S = target)) ∧
    (∀ S ∈ findSubsetSumBranchBoundRaw numbers target precision findAll,
      |sumAt numbers S - target| ≤ precision ∧
        (precision = 0 → sumAt numbers S = target)) := by
  refine ⟨?_, ?_, ?_, ?_⟩
  · intro S hS
    exact isMatch_sound hp (bitEnumRaw_mem hS).2
  · intro S hS
    exact isMatch_sound hp (meetMiddleRaw_mem hS).1
  · intro res hres S hS
    exact isMatch_sound hp (dpRaw_mem hres hS).1
  · intro S hS
    exact isMatch_sound hp (branchBoundRaw_mem hS).1

theorem claim_C1_solver_soundness_witness :
    (0 : Int) ≤ 0 ∧ |sumAt [1, 2] [0, 1] - 3| ≤ 0 := by
  have h := (claim_C1_solver_soundness [1, 2] 3 0 true (le_refl 0)).1 [0, 1]
    (by decide)
  exact ⟨le_refl 0, h.1⟩

/-- C2 (code bug): the "dp" solver is NOT complete under `find_all = true` —
on `numbers = [-2, 3]`, `target = 1`, `tolerance = 0` the valid index-set
`[0, 1]` (sum `-2 + 3 = 1`) is found by the bit-enumeration oracle but the dp
solver returns the empty ResultSet, because `numbers[i] as usize` turns a
negative element into a huge unsigned value that can never satisfy
`j >= val` (dynamic_prog.rs lines 35-37). -/
theorem claim_C2_dp_incomplete :
    findSubsetSumDpRaw [-2, 3] 1 0 true = some [] ∧
    findSubsetSumBitEnumRaw [-2, 3] 1 0 true = [[0, 1]] ∧
    sumAt [-2, 3] [0, 1] = 1 := by decide

/-- C3 (code bug): meet_middle lacks the final at-most-one truncation the
other three solvers have, so an interleaved two-worker execution (both
workers pass the `found`-flag check before either appends) returns TWO
Solutions under `find_all = false`; both are genuine Solutions of
`numbers = [0,0,0,0]`, `target = 0`.  The sequential execution returns one. -/
theorem claim_C3_meet_middle_race :
    ((mmRun [0, 0, 0, 0] 2
        (List.insertionSort sumLE (firstHalfPairs [0, 0, 0, 0] 2)) 0 0
        [false, true, false, true] (mmInit [0, 1, 2] [3])).results
      = [[], [2, 3]]) ∧
    1 < ((mmRun [0, 0, 0, 0] 2
        (List.insertionSort sumLE (firstHalfPairs [0, 0, 0, 0] 2)) 0 0
        [false, true, false, true] (mmInit [0, 1, 2] [3])).results).length ∧
    sumAt [0, 0, 0, 0] [] = 0 ∧ sumAt [0, 0, 0, 0] [2, 3] = 0 ∧
    findSubsetSumMeetMiddleRaw [0, 0, 0, 0] 0 0 false = [[]] := by decide

/-- C4 (code bug): `solve` is NOT total — the dp solver panics on a negative
target.  For `target = -1` the wrapped row length
`(target as usize) + 1 + (precision as usize)` is 0 and `dp[0][0] = true`
indexes out of bounds; for `target = -5` the wrapped length exceeds
`isize::MAX` and the table allocation aborts with a capacity overflow.  Both
are modelled by `none` (instead of the empty ResultSet the claim requires). -/
theorem claim_C4_dp_negative_target :
    findSubsetSumDpRaw [1] (-1) 0 false = none ∧
    findSubsetSumDpRaw [1] (-5) 0 false = none ∧
    solve [1] (-1) 0 false "dp" = none := by decide

/-- C5 (code bug): the dp solver never selects a negative element: on
`numbers = [-1, 2]`, `target = 1`, `tolerance = 0`, `find_all = true` the
valid subset `[0, 1]` (sum `-1 + 2 = 1`) is missing from the dp ResultSet. -/
theorem claim_C5_dp_negative_elements :
    findSubsetSumDpRaw [-1, 2] 1 0 true = some [] ∧
    sumAt [-1, 2] [0, 1] = 1 := by decide

/-- C6: algorithm-selection policy — for any name other than the four exact
strings (hence for `"auto"` and any unrecognized name), `solve` dispatches to
bit-enumeration when the element count is ≤ 25, to meet-in-the-middle when it
is ≤ 40, and to branch-and-bound otherwise; the dp solver runs only for the
exact name `"dp"` (each of the other three exact names dispatches to its own
solver). -/
theorem claim_C6_dispatch (numbers : List Int) (target precision : Int)
    (findAll : Bool) (alg : String)
    (h1 : alg ≠ "bit_enum") (h2 : alg ≠ "meet_middle") (h3 : alg ≠ "dp")
    (h4 : alg ≠ "branch_bound") :
    (solve numbers target precision findAll alg =
      some (if numbers.length ≤ 25 then
          findSubsetSumBitEnumRaw numbers target precision findAll
        else if numbers.length ≤ 40 then
          findSubsetSumMeetMiddleRaw numbers target precision findAll
        else findSubsetSumBranchBoundRaw numbers target precision findAll)) ∧
    solve numbers target precision findAll "dp" =
      findSubsetSumDpRaw numbers target precision findAll ∧
    solve numbers target precision findAll "bit_enum" =
      some (findSubsetSumBitEnumRaw numbers target precision findAll) ∧
    solve numbers target precision findAll "meet_middle" =
      some (findSubsetSumMeetMiddleRaw numbers target precision findAll) ∧
    solve numbers target precision findAll "branch_bound" =
      some (findSubsetSumBranchBoundRaw numbers target precision findAll) := by
  refine ⟨?_, ?_, ?_, ?_, ?_⟩
  · simp only [solve, if_neg h1, if_neg h2, if_neg h3, if_neg h4]
    split_ifs <;> rfl
  · simp [solve]
  · simp [solve]
  · simp [solve]
  · simp [solve]

theorem claim_C6_dispatch_witness :
    solve [1] 1 0 true "frobnicate" = some (findSubsetSumBitEnumRaw [1] 1 0 true) := by
  have h := (claim_C6_dispatch [1] 1 0 true "frobnicate"
    (by decide) (by decide) (by decide) (by decide)).1
  simpa using h

/-- C7 counterexample: under `find_all = false` on
`numbers = [1,2,3,4,5]`, `target = 9` the branch-and-bound parallel tasks
accumulate three Solutions, but the caller receives only the first one —
branch_bound.rs lines 45-50 DO truncate to a single Solution, so "every
Solution accumulated across the parallel tasks is returned to the caller"
is false. -/
theorem claim_C7_counterexample :
    (bbMerged [1, 2, 3, 4, 5] 9 0 false).length = 3 ∧
    findSubsetSumBranchBoundRaw [1, 2, 3, 4, 5] 9 0 false = [[3, 2, 1]] ∧
    (findSubsetSumBranchBoundRaw [1, 2, 3, 4, 5] 9 0 false).length = 1 := by decide

/-- C7 amended: for every Problem with `find_all = false`, the
branch-and-bound solver truncates the merged parallel results to at most one
Solution exactly like bit-enumeration does: it returns precisely the first
accumulated Solution (the take-1 prefix of the merged task results). -/
theorem claim_C7_amended (numbers : List Int) (target precision : Int) :
    findSubsetSumBranchBoundRaw numbers target precision false =
      (bbMerged numbers target precision false).take 1 := by
  simp only [findSubsetSumBranchBoundRaw]
  split
  · rfl
  · rename_i hc
    have hlen : (bbMerged numbers target precision false).length ≤ 1 := by
      by_contra h'
      exact hc ⟨by trivial, by omega⟩
    exact (List.take_of_length_le hlen).symm

/-- C8 counterexample: for empty `numbers` and `target = 0`, `tolerance = 0`,
the meet-in-the-middle solver returns the ResultSet `[[]]` containing exactly
the empty Solution — not the empty ResultSet the claim asserts; the other
three solvers agree with it. -/
theorem claim_C8_counterexample :
    findSubsetSumMeetMiddleRaw [] 0 0 true = [[]] ∧
    findSubsetSumMeetMiddleRaw [] 0 0 true ≠ [] ∧
    findSubsetSumBitEnumRaw [] 0 0 true = [[]] ∧
    findSubsetSumBranchBoundRaw [] 0 0 true = [[]] ∧
    findSubsetSumDpRaw [] 0 0 true = some [[]] := by decide

/-- C8 amended: solving a Problem with empty `numbers` never errors in the
bit-enumeration, meet-in-the-middle and branch-and-bound solvers, but the
ResultSet is empty exactly when `|target| > tolerance`; when
`|target| ≤ tolerance` it is `[[]]`, i.e. it contains exactly the empty
Solution.  The dp solver (on nonnegative representable targets) returns the
empty Solution only when `target = tolerance` (including both 0), and the
empty ResultSet otherwise — in particular it misses the empty Solution for
`0 ≤ target < tolerance` because its wrapped range lower bound empties the
target range (a negative target panics instead, see C4). -/
theorem claim_C8_amended (t p : Int) (fa : Bool) :
    (findSubsetSumBitEnumRaw [] t p fa = if |t| ≤ p then [[]] else []) ∧
    (findSubsetSumMeetMiddleRaw [] t p fa = if |t| ≤ p then [[]] else []) ∧
    (findSubsetSumBranchBoundRaw [] t p fa = if |t| ≤ p then [[]] else []) ∧
    (0 ≤ p → 0 ≤ t → t + 1 + p < 2 ^ 63 →
      findSubsetSumDpRaw [] t p fa =
        some (if (p = 0 ∧ t = 0) ∨ (0 < p ∧ t = p) then [[]] else [])) :=
  ⟨bitEnumRaw_empty t p fa, meetMiddleRaw_empty t p fa,
    branchBoundRaw_empty t p fa, fun hp ht hb => dpRaw_empty t p fa hp ht hb⟩

theorem claim_C8_amended_witness :
    (0 : Int) ≤ 0 ∧ (0 : Int) + 1 + 0 < 2 ^ 63 ∧
    findSubsetSumDpRaw [] 0 0 true = some [[]] := by
  refine ⟨le_refl 0, by norm_num, ?_⟩
  have h := (claim_C8_amended 0 0 true).2.2.2 (le_refl 0) (le_refl 0) (by norm_num)
  simpa using h

/-- C9 counterexample: Scenario A (`numbers = [1,2,3,4,5]`, `target = 9`,
`tolerance = 0`, `find_all = true`) has THREE valid index sets, not two: the
claim omits `{0, 2, 4}` (elements 1+3+5 = 9).  The bit-enumeration ResultSet
has length 3. -/
theorem claim_C9_counterexample :
    findSubsetSumBitEnumRaw [1, 2, 3, 4, 5] 9 0 true =
      [[1, 2, 3], [0, 2, 4], [3, 4]] ∧
    sumAt [1, 2, 3, 4, 5] [0, 2, 4] = 9 ∧
    (findSubsetSumBitEnumRaw [1, 2, 3, 4, 5] 9 0 true).length ≠ 2 := by decide

/-- C9 amended: on Scenario A, bit-enumeration, meet-in-the-middle and dp each
return exactly the three index sets `{1,2,3}`, `{0,2,4}`, `{3,4}` (element
sets `{2,3,4}`, `{1,3,5}`, `{4,5}`), each exactly once; branch-and-bound
returns index lists realizing exactly these three element sets but with
repetitions (its serial recursion re-visits subtrees). -/
theorem claim_C9_amended :
    findSubsetSumBitEnumRaw [1, 2, 3, 4, 5] 9 0 true =
      [[1, 2, 3], [0, 2, 4], [3, 4]] ∧
    findSubsetSumMeetMiddleRaw [1, 2, 3, 4, 5] 9 0 true =
      [[1, 2, 3], [0, 2, 4], [3, 4]] ∧
    findSubsetSumDpRaw [1, 2, 3, 4, 5] 9 0 true =
      some [[1, 2, 3], [0, 2, 4], [3, 4]] ∧
    findSubsetSumBranchBoundRaw [1, 2, 3, 4, 5] 9 0 true =
      [[3, 2, 1], [3, 2, 1], [4, 2, 0], [4, 2, 0],
        [4, 3], [4, 3], [4, 3], [4, 3], [4, 3], [4, 3], [4, 3], [4, 3]] := by decide

/-- C10: canonical ordering — every Solution returned by bit-enumeration,
meet-in-the-middle and dp lists its indices in strictly increasing order (so
indices are distinct and below the input length); branch-and-bound gives no
such guarantee: on `numbers = [1, 2]`, `target = 3` it returns `[1, 0]`
(indices in descending-absolute-value order of the elements). -/
theorem claim_C10_ordering (numbers : List Int) (target precision : Int)
    (findAll : Bool) :
    (∀ S ∈ findSubsetSumBitEnumRaw numbers target precision findAll,
      S.Pairwise (· < ·) ∧ ∀ i ∈ S, i < numbers.length) ∧
    (∀ S ∈ findSubsetSumMeetMiddleRaw numbers target precision findAll,
      S.Pairwise (· < ·) ∧ ∀ i ∈ S, i < numbers.length) ∧
    (∀ res, findSubsetSumDpRaw numbers target precision findAll = some res →
      ∀ S ∈ res, S.Pairwise (· < ·) ∧ ∀ i ∈ S, i < numbers.length) ∧
    findSubsetSumBranchBoundRaw [1, 2] 3 0 true = [[1, 0]] := by
  refine ⟨?_, ?_, ?_, by decide⟩
  · intro S hS
    obtain ⟨⟨m, hm⟩, _⟩ := bitEnumRaw_mem hS
    subst hm
    exact ⟨maskBits_pairwise _ _,
      fun i hi => lt_of_lt_of_le (maskBits_lt hi) (min_le_left _ _)⟩
  · intro S hS
    exact (meetMiddleRaw_mem hS).2
  · intro res hres S hS
    exact (dpRaw_mem hres hS).2

theorem claim_C10_ordering_witness :
    findSubsetSumDpRaw [1, 2] 3 0 true = some [[0, 1]] ∧
    ([0, 1] : List Nat).Pairwise (· < ·) := by
  have h := (claim_C10_ordering [1, 2] 3 0 true).2.2.1 [[0, 1]] (by decide)
    [0, 1] (by decide)
  exact ⟨by decide, h.1⟩

end NewSum
